import Mathlib

set_option maxRecDepth 8192

/-!
Verification of the diagnostic signal-extraction and graph-construction engine
of `scripts/opencode_ops_kit.py`: the `runbook` signature matcher
(source lines 89-112) and the `memory_graph` session-graph builder
(source lines 164-183), shallowly embedded over `List Char` text.
Case-insensitivity and whitespace model the ASCII fragment of the Python
semantics (all pattern constants in the source are ASCII).
-/

/-- ASCII whitespace, as in Python `\s` and `str.strip` (ASCII fragment:
space, tab, newline, carriage return, vertical tab, form feed). -/
def isSpace (c : Char) : Bool :=
  c = ' ' || c = '\t' || c = '\n' || c = '\r' || c = Char.ofNat 11 || c = Char.ofNat 12

/-- Case-insensitive character equality (`re.IGNORECASE`, ASCII fragment). -/
def ciEq (a b : Char) : Bool := a.toLower = b.toLower

/-- Does `s` start with `pat`, case-insensitively? -/
def ciStarts : List Char → List Char → Bool
  | [], _ => true
  | _ :: _, [] => false
  | p :: ps, c :: cs => ciEq p c && ciStarts ps cs

/-- Does `pat` occur contiguously anywhere in `s`, case-insensitively? -/
def ciSubstr (pat : List Char) : List Char → Bool
  | [] => ciStarts pat []
  | c :: cs => ciStarts pat (c :: cs) || ciSubstr pat cs

/-- The regex shapes occurring in the `runbook` rule table: a literal with no
metacharacter, an alternation of two such literals, or two literals separated
by `.*` (which under `re.DOTALL` is a gap spanning anything, newlines
included). -/
inductive Pat where
  | lit (l : List Char)
  | alt (a b : List Char)
  | gap (a b : List Char)
deriving DecidableEq

/-- Truth of `a.*b` at some position of `s` under `re.DOTALL`: an occurrence
of `a` followed, at or after its end, by an occurrence of `b`. -/
def gapSearch (a b : List Char) : List Char → Bool
  | [] => ciStarts a [] && ciSubstr b []
  | c :: cs => (ciStarts a (c :: cs) && ciSubstr b ((c :: cs).drop a.length)) || gapSearch a b cs

/-- Truth of `re.search(pattern, text, re.IGNORECASE | re.DOTALL)` for the
pattern shapes of the rule table (source line 105). -/
def search : Pat → List Char → Bool
  | .lit l, s => ciSubstr l s
  | .alt a b, s => ciSubstr a s || ciSubstr b s
  | .gap a b, s => gapSearch a b s

/-- An ASCII apostrophe, spliced into the one rule pattern that contains it. -/
def quoteChar : Char := Char.ofNat 39

def pat1 : Pat :=
  Pat.alt "fallbackModels is empty".toList "No fallback models configured".toList
def fix1 : List Char :=
  "Create project-local rate-limit-fallback.json in .opencode/ and repo root.".toList
def pat2 : Pat := Pat.lit "Model not found: anthropic/haiku".toList
def fix2 : List Char := "Replace with anthropic/claude-haiku-4-5.".toList
def pat3 : Pat :=
  Pat.gap ("Cannot find package ".toList ++ [quoteChar] ++ "react".toList ++ [quoteChar])
    "zustand".toList
def fix3 : List Char := "Upgrade/remove problematic plugin and retry with clean cache.".toList
def pat4 : Pat := Pat.alt "BunInstallFailedError".toList "EBUSY".toList
def fix4 : List Char :=
  "Close concurrent opencode runs and retry once; lock contention on cache.".toList
def pat5 : Pat :=
  Pat.gap "ENOENT: no such file or directory, mkdir".toList "opencode-token-monitor".toList
def fix5 : List Char := "Disable opencode-token-monitor or switch analytics plugin.".toList

/-- The `(pattern, fix)` rule table of `runbook` (source lines 95-101), in
declared order. -/
def rulesList : List (Pat × List Char) :=
  [(pat1, fix1), (pat2, fix2), (pat3, fix3), (pat4, fix4), (pat5, fix5)]

/-- The matching loop of `runbook` (source lines 103-108): rules evaluated in
declared order, each matching rule appended to the output, independently of
the other rules. -/
def signatureScan (rules : List (Pat × List Char)) (text : List Char) :
    List (Pat × List Char) :=
  rules.foldl (fun acc r => if search r.1 text then acc ++ [r] else acc) []

/-- `runbook` (source lines 89-112).  `none` models a log file that does not
exist: the function prints `FAIL: missing log file` and returns exit code 1
before any scanning.  Otherwise the text is scanned against the rule table and
the function returns exit code 0 (also when there are zero matches).  The
result is the match list paired with the exit code. -/
def runbookFile (src : Option (List Char)) : List (Pat × List Char) × Nat :=
  match src with
  | none => ([], 1)
  | some text => (signatureScan rulesList text, 0)


/-!
The error-extraction regex of `memory_graph` (source line 167):
`ERROR\s+.*message=(.+?)\s+(?:code=|fatal|$)` with `re.IGNORECASE` and
without `re.DOTALL` or `re.MULTILINE`, run through `findall`.  The embedding
below implements the Python backtracking semantics for exactly this pattern:
`\s+` and `.*` are greedy (longest attempt first, `.` never crossing a
newline), `(.+?)` is lazy (shortest nonempty attempt first), the alternation
is tried left to right, and `$` matches at the end of the string or just
before a newline that ends the string.  `findall` scans left to right and
resumes after the end of each non-overlapping match.
-/

def nlChar : Char := '\n'
def codeTok : List Char := "code=".toList
def fatalTok : List Char := "fatal".toList
def msgTok : List Char := "message=".toList
def errLit : List Char := "error".toList

/-- `(?:code=|fatal|$)` tried exactly at `t`; returns the rest of the text
after the matched terminator. -/
def termAt (t : List Char) : Option (List Char) :=
  if ciStarts codeTok t then some (t.drop 5)
  else if ciStarts fatalTok t then some (t.drop 5)
  else if t = [] ∨ t = [nlChar] then some t
  else none

/-- `\s*(?:code=|fatal|$)` with greedy `\s*`: prefer consuming further
whitespace; if the deeper attempt fails, try the terminator here. -/
def wsStarTerm : List Char → Option (List Char)
  | [] => termAt []
  | c :: r =>
      if isSpace c then
        match wsStarTerm r with
        | some x => some x
        | none => termAt (c :: r)
      else termAt (c :: r)

/-- `\s+(?:code=|fatal|$)` tried exactly at `t`. -/
def wsTerm : List Char → Option (List Char)
  | [] => none
  | c :: r => if isSpace c then wsStarTerm r else none

/-- `(.+?)\s+(?:code=|fatal|$)`: the lazy capture grows one non-newline
character at a time, preferring the shortest capture whose continuation
matches.  Returns the capture (appended to `acc`) and the rest after the
whole match. -/
def capLoop (acc : List Char) : List Char → Option (List Char × List Char)
  | [] => none
  | c :: r =>
      if c = nlChar then none
      else
        match wsTerm r with
        | some rem => some (acc ++ [c], rem)
        | none => capLoop (acc ++ [c]) r

/-- `message=(.+?)\s+(?:code=|fatal|$)` tried exactly at `t`. -/
def msgAt (t : List Char) : Option (List Char × List Char) :=
  if ciStarts msgTok t then capLoop [] (t.drop 8) else none

/-- `.*message=(.+?)...` with greedy `.*` (which cannot cross a newline):
prefer the rightmost `message=` position within the current line. -/
def dotStarMsg : List Char → Option (List Char × List Char)
  | [] => msgAt []
  | c :: r =>
      if c = nlChar then msgAt (c :: r)
      else
        match dotStarMsg r with
        | some x => some x
        | none => msgAt (c :: r)

/-- `\s*.*message=(.+?)...` with greedy `\s*` (backtracking into the rest). -/
def wsStarMsg : List Char → Option (List Char × List Char)
  | [] => dotStarMsg []
  | c :: r =>
      if isSpace c then
        match wsStarMsg r with
        | some x => some x
        | none => dotStarMsg (c :: r)
      else dotStarMsg (c :: r)

/-- `\s+.*message=(.+?)...`: the part of the pattern after the `ERROR`
literal (the first character must be whitespace). -/
def afterErr : List Char → Option (List Char × List Char)
  | [] => none
  | c :: r => if isSpace c then wsStarMsg r else none

/-- The whole pattern `ERROR\s+.*message=(.+?)\s+(?:code=|fatal|$)` tried
exactly at the start of `s`. -/
def tryMatch (s : List Char) : Option (List Char × List Char) :=
  if ciStarts errLit s then afterErr (s.drop 5) else none

/-- The `findall` scan: try a match at every position from left to right and
resume after each match.  `fuel` bounds the recursion; `err_findall`
instantiates it with the text length, which suffices because every match
consumes at least one character. -/
def scanErr : Nat → List Char → List (List Char)
  | 0, _ => []
  | _ + 1, [] => []
  | fuel + 1, c :: r =>
      match tryMatch (c :: r) with
      | some (cap, rem) => cap :: scanErr fuel rem
      | none => scanErr fuel r

/-- `err_re.findall(txt)` (source lines 167 and 173). -/
def err_findall (s : List Char) : List (List Char) := scanErr s.length s

/-- Every character is ASCII whitespace. -/
def allSpace (l : List Char) : Bool := l.all isSpace

/-- No character is a newline. -/
def noNl (l : List Char) : Bool := l.all (fun c => c != nlChar)

/-- `b` is a character-by-character case-variant of `a` (same length). -/
def ciSame : List Char → List Char → Bool
  | [], [] => true
  | _ :: _, [] => false
  | [], _ :: _ => false
  | p :: ps, c :: cs => ciEq p c && ciSame ps cs

/-- The shape of the text at which the terminator alternation
`(?:code=|fatal|$)` matched: `code=`, `fatal`, the end of the text, or a
newline that ends the text. -/
def TermShape (rest : List Char) : Prop :=
  ciStarts codeTok rest = true ∨ ciStarts fatalTok rest = true
    ∨ rest = [] ∨ rest = [nlChar]

/-- Split a text into its newline-separated lines. -/
def splitLines : List Char → List (List Char)
  | [] => [[]]
  | c :: r =>
      if c = nlChar then [] :: splitLines r
      else
        match splitLines r with
        | l :: t => (c :: l) :: t
        | [] => [[c]]

/-- Index of the first case-insensitive occurrence of `pat`, if any. -/
def findCi (pat : List Char) : List Char → Option Nat
  | [] => if ciStarts pat [] then some 0 else none
  | c :: r =>
      if ciStarts pat (c :: r) then some 0
      else (findCi pat r).map (· + 1)

/-!
The session-graph builder `memory_graph` (source lines 164-183): select the
lexicographically last 200 `*.log` files, read each tolerantly, extract error
messages with `err_findall`, and accumulate a node dictionary (insertion
ordered, first insertion wins) and an edge list.
-/

/-- Python `str.strip()` (ASCII fragment): remove leading and trailing
whitespace (source line 174). -/
def pyStrip (l : List Char) : List Char :=
  ((l.dropWhile isSpace).reverse.dropWhile isSpace).reverse

/-- The normalized key of a captured message: `m.strip()[:200]`
(source line 174). -/
def normKey (m : List Char) : List Char := (pyStrip m).take 200

/-- The `err:` identity namespace of error nodes. -/
def errPre : List Char := "err:".toList

/-- The error-node identity `"err:" + k` (source line 175). -/
def errId (k : List Char) : List Char := errPre ++ k

/-- Index of the last `.` in a name, if any. -/
def rfindDot : List Char → Option Nat
  | [] => none
  | c :: r =>
      match rfindDot r with
      | some i => some (i + 1)
      | none => if c = '.' then some 0 else none

/-- `PurePath.stem` (source line 171): the name without its last suffix; the
suffix is nonempty only when the last dot is neither the first nor the last
character. -/
def stem (name : List Char) : List Char :=
  match rfindDot name with
  | some i => if 0 < i ∧ i < name.length - 1 then name.take i else name
  | none => name

/-- A graph node: the Python dicts `{"id", "type"}` (session node, source
line 172) and `{"id", "type", "label"}` (error node, source line 176). -/
structure GNode where
  id : List Char
  ntype : List Char
  label : Option (List Char)
deriving DecidableEq

/-- A graph edge, the Python dict `{"from", "to", "type"}` (source line 177);
`src` embeds the `from` field and `tgt` the `to` field. -/
structure GEdge where
  src : List Char
  tgt : List Char
  etype : List Char
deriving DecidableEq

/-- The builder state and final snapshot: `nodes` in insertion order (the
order of `list(nodes.values())`, source line 179) and `edges` in append
order. -/
structure MemGraph where
  nodes : List GNode
  edges : List GEdge
deriving DecidableEq

def sessionTok : List Char := "session".toList
def errorTok : List Char := "error".toList
def hasErrorTok : List Char := "has_error".toList

/-- `nodes.setdefault(key, value)` on an insertion-ordered dict keyed by the
node id: an id already present leaves the dict unchanged (first insertion
wins), otherwise the node is appended (source lines 172 and 176). -/
def addNode (ns : List GNode) (n : GNode) : List GNode :=
  if ns.any (fun m => decide (m.id = n.id)) then ns else ns ++ [n]

/-- Process one captured message for session `sid` (source lines 174-177):
normalize, register the error node idempotently (label = the truncated key),
and always append one edge. -/
def processCap (sid : List Char) (st : MemGraph) (m : List Char) : MemGraph :=
  { nodes := addNode st.nodes ⟨errId (normKey m), errorTok, some (normKey m)⟩
    edges := st.edges ++ [⟨sid, errId (normKey m), hasErrorTok⟩] }

/-- Process one selected log file (source lines 169-177): register the
session node under the file stem, then fold over the extracted messages. -/
def processFile (st : MemGraph) (f : List Char × List Char) : MemGraph :=
  (err_findall f.2).foldl (processCap (stem f.1))
    { nodes := addNode st.nodes ⟨stem f.1, sessionTok, none⟩, edges := st.edges }

/-- The builder fold over the selected (file name, decoded text) pairs. -/
def graphOfFiles (files : List (List Char × List Char)) : MemGraph :=
  files.foldl processFile ⟨[], []⟩

/-- Lexicographic code-point order on character lists: Python string
comparison, which orders the log paths under `sorted` (source line 169; the
paths share the directory prefix, so path order is file-name order). -/
def charListLe : List Char → List Char → Bool
  | [], _ => true
  | _ :: _, [] => false
  | a :: as, b :: bs =>
      if a.toNat < b.toNat then true
      else if b.toNat < a.toNat then false
      else charListLe as bs

/-- `log_dir.glob("*.log")` (source line 169): names ending in `.log`
(`pathlib` globbing does not treat leading dots specially). -/
def globMatch (name : List Char) : Bool := ".log".toList.isSuffixOf name

/-- The sort order on directory entries, keyed by file name. -/
def fileLe {α : Type} (p q : List Char × α) : Prop := charListLe p.1 q.1 = true

instance {α : Type} : DecidableRel (fileLe (α := α)) :=
  fun p q => inferInstanceAs (Decidable (charListLe p.1 q.1 = true))

/-- The file-window selection of `memory_graph` (source line 169):
`sorted(log_dir.glob("*.log"))[-200:]` — keep the names matching the glob,
sort ascending, keep only the last 200 entries. -/
def selectFiles {α : Type} (dir : List (List Char × α)) : List (List Char × α) :=
  let m := List.insertionSort fileLe (dir.filter (fun f => globMatch f.1))
  m.drop (m.length - 200)

/-- `memory_graph` (source lines 164-183) over a directory listing of
(file name, decoded text) pairs: select the window and build the graph. -/
def memory_graph (dir : List (List Char × List Char)) : MemGraph :=
  graphOfFiles (selectFiles dir)

/-- The normalized keys extracted from one file text. -/
def fileKeys (txt : List Char) : List (List Char) := (err_findall txt).map normKey

/-- The normalized keys of all error occurrences of the given files, in
processing order. -/
def occKeys (files : List (List Char × List Char)) : List (List Char) :=
  files.flatMap (fun f => fileKeys f.2)

/-- The (session id, key) pair of every error occurrence, in processing
order. -/
def occPairs (files : List (List Char × List Char)) : List (List Char × List Char) :=
  files.flatMap (fun f => (fileKeys f.2).map (fun k => (stem f.1, k)))

/-- The stream of node ids whose insertion `memory_graph` attempts, in
order: for each file its session stem, then one error id per occurrence. -/
def idsOf (files : List (List Char × List Char)) : List (List Char) :=
  files.flatMap (fun f => stem f.1 :: (fileKeys f.2).map errId)

/-- Insert an id into a duplicate-free insertion-ordered id list. -/
def dedupIns (l : List (List Char)) (i : List Char) : List (List Char) :=
  if i ∈ l then l else l ++ [i]

/-- Is `lo ≤ b < hi`? -/
def inRange (lo hi b : Nat) : Bool := decide (lo ≤ b) && decide (b < hi)

/-- Whether `b` is a UTF-8 continuation byte. -/
def isCont (b : Nat) : Bool := inRange 128 192 b

/-- CPython `bytes.decode("utf-8", errors="ignore")` (used by `read_text`
with `errors="ignore"`, source line 170): decode UTF-8 and silently drop
each maximal invalid subpart instead of failing.  `fuel` bounds the
recursion; `decodeIgnore` instantiates it with the byte count, which
suffices because every step consumes at least one byte. -/
def decodeAux : Nat → List Nat → List Char
  | 0, _ => []
  | _ + 1, [] => []
  | fuel + 1, b :: bs =>
      if b < 128 then Char.ofNat b :: decodeAux fuel bs
      else if 194 ≤ b && b ≤ 223 then
        match bs with
        | c1 :: bs1 =>
            if isCont c1 then Char.ofNat ((b - 192) * 64 + (c1 - 128)) :: decodeAux fuel bs1
            else decodeAux fuel bs
        | [] => []
      else if 224 ≤ b && b ≤ 239 then
        match bs with
        | c1 :: bs1 =>
            if (if b = 224 then inRange 160 192 c1
                else if b = 237 then inRange 128 160 c1
                else isCont c1) then
              match bs1 with
              | c2 :: bs2 =>
                  if isCont c2 then
                    Char.ofNat ((b - 224) * 4096 + (c1 - 128) * 64 + (c2 - 128))
                      :: decodeAux fuel bs2
                  else decodeAux fuel bs1
              | [] => []
            else decodeAux fuel bs
        | [] => []
      else if 240 ≤ b && b ≤ 244 then
        match bs with
        | c1 :: bs1 =>
            if (if b = 240 then inRange 144 192 c1
                else if b = 244 then inRange 128 144 c1
                else isCont c1) then
              match bs1 with
              | c2 :: bs2 =>
                  if isCont c2 then
                    match bs2 with
                    | c3 :: bs3 =>
                        if isCont c3 then
                          Char.ofNat ((b - 240) * 262144 + (c1 - 128) * 4096
                            + (c2 - 128) * 64 + (c3 - 128)) :: decodeAux fuel bs3
                        else decodeAux fuel bs2
                    | [] => []
                  else decodeAux fuel bs1
              | [] => []
            else decodeAux fuel bs
        | [] => []
      else decodeAux fuel bs

def decodeIgnore (bs : List Nat) : List Char := decodeAux bs.length bs

/-- `p.read_text(encoding="utf-8", errors="ignore")` over the selected files
in order (source line 170): `none` models a file the operating system fails
to read — `read_text` raises, the exception propagates, and the run aborts —
while `some bs` is a readable file with raw bytes `bs`.  The error value is
the failing file name. -/
def readAll :
    List (List Char × Option (List Nat)) → Except (List Char) (List (List Char × List Char))
  | [] => .ok []
  | (n, none) :: _ => .error n
  | (n, some bs) :: rest => (readAll rest).map (fun l => (n, decodeIgnore bs) :: l)

/-- `memory_graph` from raw directory contents: select the window, read each
selected file tolerantly (decode errors ignored, OS read errors propagated),
and build the graph.  The run aborts, producing no snapshot, iff some
selected file is unreadable. -/
def memory_graph_raw (dir : List (List Char × Option (List Nat))) :
    Except (List Char) MemGraph :=
  (readAll (selectFiles dir)).map graphOfFiles

/-- The id-collision directory of the C1/C9 counterexamples: the first log
file's stem is literally `err:disk full`, which is also the error identity
derived from the message `disk full` extracted from the second file. -/
def collideDir : List (List Char × List Char) :=
  [("err:disk full.log".toList, []),
   ("z.log".toList, "ERROR x message=disk full code=1\n".toList)]

/-- The collision directory with the error occurring twice. -/
def collideDir2 : List (List Char × List Char) :=
  [("err:disk full.log".toList, []),
   ("z.log".toList,
    "ERROR x message=disk full code=1\nERROR x message=disk full code=1\n".toList)]

/-- A benign two-file directory: the same error message in two sessions. -/
def twoSessionDir : List (List Char × List Char) :=
  [("a.log".toList, "ERROR x message=disk full code=E1\n".toList),
   ("b.log".toList, "ERROR y message=disk full code=E2\n".toList)]

/-- A directory listing with one non-log entry, for the C3 witness. -/
def mixedDir : List (List Char × List Char) :=
  [("b.log".toList, []), ("notes.txt".toList, []), ("a.log".toList, [])]

/-- The 201-character capture text of the C6 counterexample: the captured
message is two spaces followed by 199 `X`s. -/
def c6text : List Char :=
  "ERROR m message=".toList ++ [' ', ' '] ++ List.replicate 199 'X' ++ " code=1".toList

/-- Modelled from the spec: the error-extraction step as the C4 claim words
it — on each line beginning with an error marker, capture the text following
the `message=` field up to the next `code=` or `fatal` marker or to the end
of content, case-insensitively.  (Lines are taken as the content unit; at the
single-line inputs used below every reading of "end of content" agrees.)
Written only to compare the claim against `err_findall`. -/
def specErrExtract (s : List Char) : List (List Char) :=
  (splitLines s).foldr
    (fun l acc =>
      if ciStarts errLit l then
        match findCi msgTok l with
        | some i =>
            let after := l.drop (i + 8)
            let cut :=
              match findCi codeTok after, findCi fatalTok after with
              | some a, some b => min a b
              | some a, none => a
              | none, some b => b
              | none, none => after.length
            after.take cut :: acc
        | none => acc
      else acc) []


/-- The number of occurrences of `k` in a list of keys. -/
def countOcc (k : List Char) (l : List (List Char)) : Nat :=
  l.countP (fun x => decide (x = k))

/-- The shape every node of the builder state has when no session stem lies
in the `err:` namespace: an id with the `err:` prefix belongs to an
error node built from its key, and any other id belongs to a session node. -/
def NodeOk (n : GNode) : Prop :=
  (errPre.isPrefixOf n.id = true ∧ ∃ k, n = ⟨errId k, errorTok, some k⟩)
    ∨ (errPre.isPrefixOf n.id = false ∧ n.ntype = sessionTok ∧ n.label = none)


-- ### Theorems

theorem scanFoldAux (text : List Char) :
    ∀ (rules acc : List (Pat × List Char)),
      rules.foldl (fun acc r => if search r.1 text then acc ++ [r] else acc) acc
        = acc ++ rules.filter (fun r => search r.1 text)
  | [], acc => by simp
  | r :: rs, acc => by
      cases h : search r.1 text <;>
        simp [List.foldl_cons, List.filter_cons, h, scanFoldAux text rs]

theorem signatureScan_eq_filter (rules : List (Pat × List Char)) (text : List Char) :
    signatureScan rules text = rules.filter (fun r => search r.1 text) := by
  simpa using scanFoldAux text rules []

/-- C5: for every ordered rule list and text, the matcher output is exactly
the declared rule order restricted to the rules whose pattern matches the
text; each rule is evaluated independently of earlier matches (the
accumulating loop equals an order-preserving filter, hence the output is a
sublist of the declared order). -/
theorem c5_order_preserving (rules : List (Pat × List Char)) (text : List Char) :
    signatureScan rules text = rules.filter (fun r => search r.1 text)
      ∧ List.Sublist (signatureScan rules text) rules := by
  refine ⟨signatureScan_eq_filter rules text, ?_⟩
  rw [signatureScan_eq_filter]
  exact List.filter_sublist rules

theorem countFix2 (t : List Char) :
    (signatureScan rulesList t).countP (fun r => decide (r.2 = fix2))
      = if search pat2 t then 1 else 0 := by
  rw [signatureScan_eq_filter]
  cases h1 : search pat1 t <;> cases h2 : search pat2 t <;> cases h3 : search pat3 t <;>
    cases h4 : search pat4 t <;> cases h5 : search pat5 t <;>
      simp only [rulesList, List.filter_cons, List.filter_nil, h1, h2, h3, h4, h5,
        if_true, if_false] <;> decide

/-- The scanned text of the C2 scenario with the rule-2 signature split across
two lines by a newline inserted inside it. -/
def splitText : List Char :=
  "Model not found: anthropic/".toList ++ ['\n'] ++ "haiku".toList

/-- C2 counterexample: on a text in which `Model not found: anthropic/haiku`
is split across two lines by a newline, the matcher does NOT return exactly
one match carrying the rule-2 remediation — the pattern contains no
metacharacter, so `re.DOTALL` does not let it span the break, and the match
count for that remediation is 0, not 1. -/
theorem c2_counterexample :
    ¬ ((signatureScan rulesList splitText).countP (fun r => decide (r.2 = fix2)) = 1) := by
  decide

/-- C2 amended: a scanned text containing the literal
`Model not found: anthropic/haiku` contiguously yields exactly one match
carrying the remediation `Replace with anthropic/claude-haiku-4-5.`; a text
in which that substring is split across two lines by a newline (and not also
present contiguously) yields no match for that rule. -/
theorem c2_amended :
    (∀ t : List Char, ciSubstr "Model not found: anthropic/haiku".toList t = true →
        (signatureScan rulesList t).countP (fun r => decide (r.2 = fix2)) = 1)
    ∧ (signatureScan rulesList splitText).countP (fun r => decide (r.2 = fix2)) = 0 := by
  constructor
  · intro t ht
    rw [countFix2 t]
    have : search pat2 t = true := ht
    rw [this]
    rfl
  · decide

/-- C2 amended, witnessed at a concrete two-line text that contains the
signature contiguously. -/
theorem c2_witness :
    ciSubstr "Model not found: anthropic/haiku".toList
        ("boot\nModel not found: anthropic/haiku\nretry".toList) = true
      ∧ (signatureScan rulesList "boot\nModel not found: anthropic/haiku\nretry".toList).countP
          (fun r => decide (r.2 = fix2)) = 1 :=
  ⟨by decide, c2_amended.1 "boot\nModel not found: anthropic/haiku\nretry".toList (by decide)⟩

/-- C7 counterexample: a scanned text source that does not exist is NOT
treated by the matcher as a valid zero-result case: `runbook` reports
`FAIL: missing log file` and returns exit code 1, not 0. -/
theorem c7_counterexample : ¬ ((runbookFile none).2 = 0) := by decide

/-- C7 amended: an empty scanned text source is treated by the matcher as a
valid zero-result case (empty match sequence, exit code 0); a scanned text
source that does not exist causes the matcher to report a precondition
failure (exit code 1) rather than a zero-result success. -/
theorem c7_amended : runbookFile (some []) = ([], 0) ∧ runbookFile none = ([], 1) := by
  decide

example : err_findall "ERROR x message=disk full code=E1".toList = ["disk full".toList] := by
  decide
example : err_findall "ERROR a message=disk full".toList = [] := by decide
example : err_findall "ERROR a message=disk full\n".toList = ["disk full".toList] := by decide
example : err_findall "ERROR a message=disk full\nmore".toList = [] := by decide
example : err_findall "xxERROR a message=hi code=1".toList = ["hi".toList] := by decide
example : err_findall "error a message=hi fatal".toList = ["hi".toList] := by decide
example : err_findall "ERROR m message=a b\nERROR m message=c code=x".toList = ["c".toList] := by
  decide
example : err_findall "ERROR x message=a message=b code=1".toList = ["b".toList] := by decide
example :
    err_findall "ERROR m message=x code=ERROR n message=y code=1".toList = ["y".toList] := by
  decide
example : err_findall "ERROR\n\n  message=x code=1".toList = ["x".toList] := by decide
example : err_findall "ERROR  message=  X code=1".toList = ["  X".toList] := by decide
example : err_findall "ERROR m message=oops fatal stuff".toList = ["oops".toList] := by decide
example : err_findall "ERROR m message=x,code=1".toList = [] := by decide
example : err_findall "ERROR m message=x codex= code=1".toList = ["x codex=".toList] := by decide
example : err_findall "ERROR \nmessage=a code=1\nmessage=b code=2".toList = ["a".toList] := by
  decide
example :
    err_findall "ERROR a message=one code=1\nERROR b message=two code=2".toList
      = ["one".toList, "two".toList] := by decide
example : err_findall "ERROR m message=\n code=1".toList = [] := by decide
example : err_findall "ERROR m message=x \n\n".toList = ["x".toList] := by decide
example : err_findall "ERRORmessage=x code=1".toList = [] := by decide
example : err_findall "ERROR m message= x code=1".toList = [" x".toList] := by decide
example : err_findall "something ERROR in message=deep fail\n".toList = ["deep fail".toList] := by
  decide
theorem ciStarts_take : ∀ (pat t : List Char), ciStarts pat t = true →
    ciSame pat (t.take pat.length) = true
  | [], _, _ => rfl
  | p :: ps, [], h => by simp [ciStarts] at h
  | p :: ps, c :: cs, h => by
      simp only [ciStarts, Bool.and_eq_true] at h
      simp only [List.length_cons, List.take_succ_cons, ciSame, Bool.and_eq_true]
      exact ⟨h.1, ciStarts_take ps cs h.2⟩

theorem ciSame_length : ∀ (pat u : List Char), ciSame pat u = true → u.length = pat.length
  | [], [], _ => rfl
  | [], _ :: _, h => by simp [ciSame] at h
  | _ :: _, [], h => by simp [ciSame] at h
  | p :: ps, c :: cs, h => by
      simp only [ciSame, Bool.and_eq_true] at h
      simp [ciSame_length ps cs h.2]

theorem termAt_sound (t x : List Char) (h : termAt t = some x) :
    TermShape t ∧ (x = t.drop 5 ∨ x = t) := by
  unfold termAt at h
  split_ifs at h with h1 h2 h3
  · exact ⟨Or.inl h1, Or.inl (Option.some_injective _ h).symm⟩
  · exact ⟨Or.inr (Or.inl h2), Or.inl (Option.some_injective _ h).symm⟩
  · refine ⟨?_, Or.inr (Option.some_injective _ h).symm⟩
    cases h3 with
    | inl h3 => exact Or.inr (Or.inr (Or.inl h3))
    | inr h3 => exact Or.inr (Or.inr (Or.inr h3))

theorem wsStarTerm_sound : ∀ (t x : List Char), wsStarTerm t = some x →
    ∃ w rest, t = w ++ rest ∧ allSpace w = true ∧ termAt rest = some x
  | [], x, h => ⟨[], [], rfl, rfl, by simpa [wsStarTerm] using h⟩
  | c :: r, x, h => by
      rw [wsStarTerm] at h
      by_cases hc : isSpace c = true
      · rw [if_pos hc] at h
        cases hr : wsStarTerm r with
        | some y =>
            rw [hr] at h
            obtain ⟨w, rest, hsplit, hsp, hterm⟩ := wsStarTerm_sound r y hr
            refine ⟨c :: w, rest, by simp [hsplit], ?_, by rwa [Option.some_injective _ h] at hterm⟩
            simp only [allSpace, List.all_cons, Bool.and_eq_true]
            exact ⟨hc, hsp⟩
        | none =>
            rw [hr] at h
            exact ⟨[], c :: r, rfl, rfl, h⟩
      · rw [if_neg hc] at h
        exact ⟨[], c :: r, rfl, rfl, h⟩

theorem wsTerm_sound (t x : List Char) (h : wsTerm t = some x) :
    ∃ ws rest, t = ws ++ rest ∧ ws ≠ [] ∧ allSpace ws = true ∧ TermShape rest
      ∧ (x = rest.drop 5 ∨ x = rest) := by
  match t with
  | [] => exact absurd h (by simp [wsTerm])
  | c :: r =>
      rw [wsTerm] at h
      by_cases hc : isSpace c = true
      · rw [if_pos hc] at h
        obtain ⟨w, rest, hsplit, hsp, hterm⟩ := wsStarTerm_sound r x h
        obtain ⟨hshape, hx⟩ := termAt_sound rest x hterm
        refine ⟨c :: w, rest, by simp [hsplit], by simp, ?_, hshape, hx⟩
        simp only [allSpace, List.all_cons, Bool.and_eq_true]
        exact ⟨hc, hsp⟩
      · rw [if_neg hc] at h
        exact absurd h (by simp)

theorem capLoop_sound : ∀ (t acc cap rem : List Char), capLoop acc t = some (cap, rem) →
    ∃ d ws rest, t = d ++ ws ++ rest ∧ cap = acc ++ d ∧ d ≠ [] ∧ noNl d = true
      ∧ ws ≠ [] ∧ allSpace ws = true ∧ TermShape rest ∧ (rem = rest.drop 5 ∨ rem = rest)
  | [], acc, cap, rem, h => by simp [capLoop] at h
  | c :: r, acc, cap, rem, h => by
      rw [capLoop] at h
      by_cases hc : c = nlChar
      · rw [if_pos hc] at h; exact absurd h (by simp)
      · rw [if_neg hc] at h
        cases hw : wsTerm r with
        | some rem0 =>
            rw [hw] at h
            simp only [Option.some.injEq, Prod.mk.injEq] at h
            obtain ⟨hcap, hrem⟩ := h
            obtain ⟨ws, rest, hsplit, hws, hsp, hshape, hx⟩ := wsTerm_sound r rem0 hw
            refine ⟨[c], ws, rest, by simp [hsplit], hcap.symm, by simp, ?_, hws, hsp, hshape,
              by rw [← hrem]; exact hx⟩
            simp [noNl, hc]
        | none =>
            rw [hw] at h
            obtain ⟨d, ws, rest, hsplit, hcap, hd, hnl, hws, hsp, hshape, hx⟩ :=
              capLoop_sound r (acc ++ [c]) cap rem h
            refine ⟨c :: d, ws, rest, by simp [hsplit], by simp [hcap], by simp, ?_,
              hws, hsp, hshape, hx⟩
            simp only [noNl, List.all_cons, Bool.and_eq_true, bne_iff_ne, ne_eq]
            exact ⟨hc, hnl⟩

theorem msgAt_sound (t cap rem : List Char) (h : msgAt t = some (cap, rem)) :
    ∃ m8 d ws rest, t = m8 ++ d ++ ws ++ rest ∧ ciSame msgTok m8 = true ∧ cap = d
      ∧ d ≠ [] ∧ noNl d = true ∧ ws ≠ [] ∧ allSpace ws = true ∧ TermShape rest
      ∧ (rem = rest.drop 5 ∨ rem = rest) := by
  unfold msgAt at h
  by_cases hm : ciStarts msgTok t = true
  · rw [if_pos hm] at h
    obtain ⟨d, ws, rest, hsplit, hcap, hd, hnl, hws, hsp, hshape, hx⟩ :=
      capLoop_sound (t.drop 8) [] cap rem h
    refine ⟨t.take 8, d, ws, rest, ?_, ?_, by simpa using hcap, hd, hnl, hws, hsp, hshape, hx⟩
    · have hsplit2 : List.drop 8 t = d ++ (ws ++ rest) := by
        rw [hsplit, List.append_assoc]
      rw [List.append_assoc, List.append_assoc, ← hsplit2]
      exact (List.take_append_drop 8 t).symm
    · have h8 : msgTok.length = 8 := rfl
      have := ciStarts_take msgTok t hm
      rwa [h8] at this
  · rw [if_neg hm] at h; exact absurd h (by simp)

theorem dotStarMsg_sound : ∀ (t : List Char) (x : List Char × List Char),
    dotStarMsg t = some x → ∃ d0 tail, t = d0 ++ tail ∧ noNl d0 = true ∧ msgAt tail = some x
  | [], x, h => ⟨[], [], rfl, rfl, by simpa [dotStarMsg] using h⟩
  | c :: r, x, h => by
      rw [dotStarMsg] at h
      by_cases hc : c = nlChar
      · rw [if_pos hc] at h; exact ⟨[], c :: r, rfl, rfl, h⟩
      · rw [if_neg hc] at h
        cases hr : dotStarMsg r with
        | some y =>
            rw [hr] at h
            obtain ⟨d0, tail, hsplit, hnl, hmsg⟩ := dotStarMsg_sound r y hr
            refine ⟨c :: d0, tail, by simp [hsplit], ?_, by rw [← Option.some_injective _ h]; exact hmsg⟩
            simp only [noNl, List.all_cons, Bool.and_eq_true, bne_iff_ne, ne_eq]
            exact ⟨hc, hnl⟩
        | none =>
            rw [hr] at h
            exact ⟨[], c :: r, rfl, rfl, h⟩

theorem wsStarMsg_sound : ∀ (t : List Char) (x : List Char × List Char),
    wsStarMsg t = some x → ∃ w tail, t = w ++ tail ∧ allSpace w = true
      ∧ dotStarMsg tail = some x
  | [], x, h => ⟨[], [], rfl, rfl, by simpa [wsStarMsg] using h⟩
  | c :: r, x, h => by
      rw [wsStarMsg] at h
      by_cases hc : isSpace c = true
      · rw [if_pos hc] at h
        cases hr : wsStarMsg r with
        | some y =>
            rw [hr] at h
            obtain ⟨w, tail, hsplit, hsp, hdot⟩ := wsStarMsg_sound r y hr
            refine ⟨c :: w, tail, by simp [hsplit], ?_,
              by rw [← Option.some_injective _ h]; exact hdot⟩
            simp only [allSpace, List.all_cons, Bool.and_eq_true]
            exact ⟨hc, hsp⟩
        | none =>
            rw [hr] at h
            exact ⟨[], c :: r, rfl, rfl, h⟩
      · rw [if_neg hc] at h
        exact ⟨[], c :: r, rfl, rfl, h⟩

theorem tryMatch_sound (s cap rem : List Char) (h : tryMatch s = some (cap, rem)) :
    ∃ e5 w d m8 ws rest,
      s = e5 ++ w ++ d ++ m8 ++ cap ++ ws ++ rest
      ∧ ciSame errLit e5 = true ∧ w ≠ [] ∧ allSpace w = true ∧ noNl d = true
      ∧ ciSame msgTok m8 = true ∧ cap ≠ [] ∧ noNl cap = true
      ∧ ws ≠ [] ∧ allSpace ws = true ∧ TermShape rest
      ∧ (rem = rest.drop 5 ∨ rem = rest) := by
  unfold tryMatch at h
  by_cases he : ciStarts errLit s = true
  · rw [if_pos he] at h
    cases hdrop : s.drop 5 with
    | nil => rw [hdrop] at h; exact absurd h (by simp [afterErr])
    | cons c r =>
        rw [hdrop, afterErr] at h
        by_cases hc : isSpace c = true
        · rw [if_pos hc] at h
          obtain ⟨w1, tail1, hsplit1, hsp1, hdot⟩ := wsStarMsg_sound r _ h
          obtain ⟨d1, tail2, hsplit2, hnl1, hmsg⟩ := dotStarMsg_sound tail1 _ hdot
          obtain ⟨m8, d, ws, rest, hsplit3, hm8, hcd, hdn, hnld, hws, hsp, hshape, hx⟩ :=
            msgAt_sound tail2 cap rem hmsg
          have hs : s = s.take 5 ++ (c :: r) := by
            rw [← hdrop]; exact (List.take_append_drop 5 s).symm
          have he5 : ciSame errLit (s.take 5) = true := by
            have h5 : errLit.length = 5 := rfl
            have := ciStarts_take errLit s he
            rwa [h5] at this
          refine ⟨s.take 5, c :: w1, d1, m8, ws, rest, ?_, he5, by simp, ?_, hnl1, hm8,
            by rw [hcd]; exact hdn, by rw [hcd]; exact hnld, hws, hsp, hshape, hx⟩
          · conv_lhs => rw [hs]
            rw [hsplit1, hsplit2, hsplit3, hcd]
            simp [List.append_assoc]
          · simp only [allSpace, List.all_cons, Bool.and_eq_true]
            exact ⟨hc, hsp1⟩
        · rw [if_neg hc] at h; exact absurd h (by simp)
  · rw [if_neg he] at h; exact absurd h (by simp)

theorem tryMatch_tail (s cap rem : List Char) (h : tryMatch s = some (cap, rem)) :
    ∃ u, s = u ++ rem ∧ u ≠ [] := by
  obtain ⟨e5, w, d, m8, ws, rest, hsplit, he5, hw, -, -, -, -, -, -, -, -, hx⟩ :=
    tryMatch_sound s cap rem h
  have he5len : e5.length = 5 := by
    have := ciSame_length errLit e5 he5
    simpa using this
  have he5ne : e5 ≠ [] := by
    intro hnil; rw [hnil] at he5len; simp at he5len
  cases hx with
  | inl hx =>
      refine ⟨e5 ++ w ++ d ++ m8 ++ cap ++ ws ++ rest.take 5, ?_, by simp [he5ne]⟩
      rw [hsplit, hx]
      try simp [List.append_assoc, List.take_append_drop]
  | inr hx =>
      refine ⟨e5 ++ w ++ d ++ m8 ++ cap ++ ws, ?_, by simp [he5ne]⟩
      rw [hsplit, hx]
      try simp [List.append_assoc]

theorem scanErr_mem : ∀ (fuel : Nat) (s cap : List Char), cap ∈ scanErr fuel s →
    ∃ pre suf rem, s = pre ++ suf ∧ tryMatch suf = some (cap, rem)
  | 0, s, cap, h => by simp [scanErr] at h
  | _ + 1, [], cap, h => by simp [scanErr] at h
  | fuel + 1, c :: r, cap, h => by
      rw [scanErr] at h
      cases ht : tryMatch (c :: r) with
      | some x =>
          obtain ⟨cap0, rem0⟩ := x
          rw [ht] at h
          rcases List.mem_cons.mp h with hhd | htl
          · exact ⟨[], c :: r, rem0, rfl, by rw [ht, hhd]⟩
          · obtain ⟨pre, suf, rem, hsplit, hmatch⟩ := scanErr_mem fuel rem0 cap htl
            obtain ⟨u, hu, -⟩ := tryMatch_tail (c :: r) cap0 rem0 ht
            exact ⟨u ++ pre, suf, rem, by rw [hu, hsplit, List.append_assoc], hmatch⟩
      | none =>
          rw [ht] at h
          obtain ⟨pre, suf, rem, hsplit, hmatch⟩ := scanErr_mem fuel r cap h
          exact ⟨c :: pre, suf, rem, by rw [hsplit]; rfl, hmatch⟩

/-- C4 counterexample: the claim's description and the code disagree.  At
`ERROR a message=disk full` (no trailing whitespace) the described extraction
captures `disk full` (the message extends to the end of content), but the
regex requires at least one whitespace character before every terminator —
end of text included — so `findall` captures nothing.  Conversely, at
`xxERROR b message=hi code=1` the error marker does not begin the line, so
the described extraction captures nothing, yet the unanchored regex captures
`hi`. -/
theorem c4_counterexample :
    specErrExtract "ERROR a message=disk full".toList = ["disk full".toList]
      ∧ err_findall "ERROR a message=disk full".toList = []
      ∧ specErrExtract "xxERROR b message=hi code=1".toList = []
      ∧ err_findall "xxERROR b message=hi code=1".toList = ["hi".toList] :=
  ⟨by decide, by decide, by decide, by decide⟩

/-- C4 amended: every text captured by the extraction step is a nonempty,
newline-free capture that follows a `message=` field; the field is preceded —
anywhere in the text, not necessarily at a line start — by a case-insensitive
error marker followed by mandatory whitespace and newline-free filler; and
the capture is terminated by mandatory whitespace followed by `code=`,
`fatal`, the end of the text, or a newline ending the text.  In particular a
candidate message that is not followed by a whitespace-preceded terminator is
not captured. -/
theorem c4_capture_shape (s cap : List Char) (h : cap ∈ err_findall s) :
    cap ≠ [] ∧ noNl cap = true ∧
    ∃ pre e5 w d m8 ws rest,
      s = pre ++ e5 ++ w ++ d ++ m8 ++ cap ++ ws ++ rest
      ∧ ciSame errLit e5 = true ∧ w ≠ [] ∧ allSpace w = true ∧ noNl d = true
      ∧ ciSame msgTok m8 = true ∧ ws ≠ [] ∧ allSpace ws = true ∧ TermShape rest := by
  obtain ⟨pre, suf, rem, hsplit, hmatch⟩ := scanErr_mem s.length s cap h
  obtain ⟨e5, w, d, m8, ws, rest, hsuf, he5, hw, hsp, hnld, hm8, hcapne, hcapnl, hws,
    hwssp, hshape, -⟩ := tryMatch_sound suf cap rem hmatch
  refine ⟨hcapne, hcapnl, pre, e5, w, d, m8, ws, rest, ?_, he5, hw, hsp, hnld, hm8,
    hws, hwssp, hshape⟩
  rw [hsplit, hsuf]
  simp [List.append_assoc]

/-- C4 amended, witnessed at a concrete log line: the capture `hi` of
`ERROR x message=hi code=1 tail` carries the stated shape. -/
theorem c4_witness :
    "hi".toList ∈ err_findall "ERROR x message=hi code=1 tail".toList
    ∧ ("hi".toList ≠ [] ∧ noNl "hi".toList = true ∧
      ∃ pre e5 w d m8 ws rest,
        "ERROR x message=hi code=1 tail".toList
          = pre ++ e5 ++ w ++ d ++ m8 ++ "hi".toList ++ ws ++ rest
        ∧ ciSame errLit e5 = true ∧ w ≠ [] ∧ allSpace w = true ∧ noNl d = true
        ∧ ciSame msgTok m8 = true ∧ ws ≠ [] ∧ allSpace ws = true ∧ TermShape rest) :=
  ⟨by decide, c4_capture_shape _ _ (by decide)⟩

example : (selectFiles mixedDir).map Prod.fst = ["a.log".toList, "b.log".toList] := by decide

example :
    (memory_graph twoSessionDir).nodes
      = [⟨"a".toList, sessionTok, none⟩,
         ⟨errId "disk full".toList, errorTok, some "disk full".toList⟩,
         ⟨"b".toList, sessionTok, none⟩]
    ∧ (memory_graph twoSessionDir).edges
      = [⟨"a".toList, errId "disk full".toList, hasErrorTok⟩,
         ⟨"b".toList, errId "disk full".toList, hasErrorTok⟩] := by decide

example :
    (memory_graph collideDir).nodes
      = [⟨"err:disk full".toList, sessionTok, none⟩, ⟨"z".toList, sessionTok, none⟩]
    ∧ (memory_graph collideDir).edges
      = [⟨"z".toList, "err:disk full".toList, hasErrorTok⟩] := by decide

example : decodeIgnore [255, 72, 105] = "Hi".toList := by decide

example : decodeIgnore [195, 169] = [Char.ofNat 233] := by decide

example : stem "err:disk full.log".toList = "err:disk full".toList := by decide

example : stem ".log".toList = ".log".toList := by decide

example : pyStrip "  ab  ".toList = "ab".toList := by decide

theorem foldCaps_edges (sid : List Char) : ∀ (caps : List (List Char)) (st : MemGraph),
    (caps.foldl (processCap sid) st).edges
      = st.edges ++ caps.map (fun m => ⟨sid, errId (normKey m), hasErrorTok⟩)
  | [], st => by simp
  | m :: ms, st => by
      rw [List.foldl_cons, foldCaps_edges sid ms]
      simp [processCap, List.append_assoc]

theorem foldCaps_nodes (sid : List Char) : ∀ (caps : List (List Char)) (st : MemGraph),
    (caps.foldl (processCap sid) st).nodes
      = caps.foldl
          (fun ns m => addNode ns ⟨errId (normKey m), errorTok, some (normKey m)⟩) st.nodes
  | [], _ => rfl
  | m :: ms, st => by
      rw [List.foldl_cons, List.foldl_cons]
      exact foldCaps_nodes sid ms (processCap sid st m)

theorem addNode_ids (ns : List GNode) (n : GNode) :
    (addNode ns n).map GNode.id = dedupIns (ns.map GNode.id) n.id := by
  have hiff : ((ns.any fun m => decide (m.id = n.id)) = true) ↔ n.id ∈ ns.map GNode.id := by
    rw [List.any_eq_true]
    constructor
    · rintro ⟨m, hm, hd⟩
      rw [decide_eq_true_eq] at hd
      exact List.mem_map.mpr ⟨m, hm, hd⟩
    · intro hmem
      obtain ⟨m, hm, hd⟩ := List.mem_map.mp hmem
      exact ⟨m, hm, by rw [decide_eq_true_eq]; exact hd⟩
  unfold addNode dedupIns
  by_cases h : n.id ∈ ns.map GNode.id
  · rw [if_pos (hiff.mpr h), if_pos h]
  · rw [if_neg (fun hc => h (hiff.mp hc)), if_neg h]
    simp

theorem graph_edges : ∀ (files : List (List Char × List Char)) (st : MemGraph),
    (files.foldl processFile st).edges
      = st.edges ++ files.flatMap
          (fun f => (fileKeys f.2).map (fun k => ⟨stem f.1, errId k, hasErrorTok⟩))
  | [], st => by simp
  | f :: fs, st => by
      rw [List.foldl_cons, graph_edges fs]
      show (List.foldl (processCap (stem f.1)) _ (err_findall f.2)).edges ++ _ = _
      rw [foldCaps_edges]
      simp only [fileKeys, List.map_map, List.flatMap_cons, List.append_assoc]
      rfl

theorem graph_nodes_ids : ∀ (files : List (List Char × List Char)) (st : MemGraph),
    (files.foldl processFile st).nodes.map GNode.id
      = (idsOf files).foldl dedupIns (st.nodes.map GNode.id)
  | [], st => by simp [idsOf]
  | f :: fs, st => by
      rw [List.foldl_cons, graph_nodes_ids fs]
      show (idsOf fs).foldl dedupIns
          ((List.foldl (processCap (stem f.1)) _ (err_findall f.2)).nodes.map GNode.id) = _
      rw [foldCaps_nodes]
      have hinner : ∀ (caps : List (List Char)) (ns : List GNode),
          (caps.foldl
            (fun ns m => addNode ns ⟨errId (normKey m), errorTok, some (normKey m)⟩)
              ns).map GNode.id
            = caps.foldl (fun l m => dedupIns l (errId (normKey m))) (ns.map GNode.id) := by
        intro caps
        induction caps with
        | nil => intro ns; rfl
        | cons m ms ih =>
            intro ns
            rw [List.foldl_cons, List.foldl_cons, ih, addNode_ids]
      rw [hinner]
      show _ = (idsOf (f :: fs)).foldl dedupIns (st.nodes.map GNode.id)
      simp only [idsOf, List.flatMap_cons, List.foldl_append, List.foldl_cons]
      rw [addNode_ids]
      congr 1
      rw [List.foldl_map]
      simp only [fileKeys, List.foldl_map]

theorem dedupIns_mem (l : List (List Char)) (i j : List Char) :
    i ∈ dedupIns l j ↔ i ∈ l ∨ i = j := by
  unfold dedupIns
  by_cases h : j ∈ l
  · rw [if_pos h]
    constructor
    · exact fun hi => Or.inl hi
    · rintro (hi | rfl) <;> [exact hi; exact h]
  · rw [if_neg h]
    simp

theorem dedupFold_mem : ∀ (stream l : List (List Char)) (i : List Char),
    i ∈ stream.foldl dedupIns l ↔ i ∈ l ∨ i ∈ stream
  | [], l, i => by simp
  | j :: js, l, i => by
      rw [List.foldl_cons, dedupFold_mem js]
      rw [dedupIns_mem]
      constructor
      · rintro ((hi | rfl) | hi)
        · exact Or.inl hi
        · exact Or.inr (List.mem_cons_self _ _)
        · exact Or.inr (List.mem_cons_of_mem _ hi)
      · rintro (hi | hi)
        · exact Or.inl (Or.inl hi)
        · rcases List.mem_cons.mp hi with rfl | hi
          · exact Or.inl (Or.inr rfl)
          · exact Or.inr hi

theorem dedupIns_nodup (l : List (List Char)) (i : List Char) (h : l.Nodup) :
    (dedupIns l i).Nodup := by
  unfold dedupIns
  by_cases hm : i ∈ l
  · rwa [if_pos hm]
  · rw [if_neg hm]
    simp [List.nodup_append, h, hm]

theorem dedupFold_nodup : ∀ (stream l : List (List Char)), l.Nodup →
    (stream.foldl dedupIns l).Nodup
  | [], _, h => h
  | j :: js, l, h => by
      rw [List.foldl_cons]
      exact dedupFold_nodup js _ (dedupIns_nodup l j h)

theorem isPrefixOf_self_append : ∀ (a b : List Char), a.isPrefixOf (a ++ b) = true
  | [], b => by cases b <;> rfl
  | c :: cs, b => by
      simp only [List.cons_append, List.isPrefixOf, Bool.and_eq_true, beq_self_eq_true,
        true_and]
      exact isPrefixOf_self_append cs b

theorem errId_inj {a b : List Char} (h : errId a = errId b) : a = b :=
  List.append_cancel_left h

theorem mem_addNode {ns : List GNode} {m n : GNode} (h : n ∈ addNode ns m) :
    n ∈ ns ∨ n = m := by
  unfold addNode at h
  split_ifs at h
  · exact Or.inl h
  · rcases List.mem_append.mp h with h | h
    · exact Or.inl h
    · exact Or.inr (List.mem_singleton.mp h)

theorem addNode_ok {ns : List GNode} {m : GNode} (hns : ∀ n ∈ ns, NodeOk n)
    (hm : NodeOk m) : ∀ n ∈ addNode ns m, NodeOk n := by
  intro n hn
  rcases mem_addNode hn with h | rfl
  · exact hns n h
  · exact hm

theorem errNode_ok (k : List Char) : NodeOk ⟨errId k, errorTok, some k⟩ :=
  Or.inl ⟨isPrefixOf_self_append errPre k, k, rfl⟩

theorem sessNode_ok {sid : List Char} (h : errPre.isPrefixOf sid = false) :
    NodeOk ⟨sid, sessionTok, none⟩ := Or.inr ⟨h, rfl, rfl⟩

theorem foldCaps_ok : ∀ (caps : List (List Char)) (ns : List GNode),
    (∀ n ∈ ns, NodeOk n) →
    ∀ n ∈ caps.foldl
        (fun ns m => addNode ns ⟨errId (normKey m), errorTok, some (normKey m)⟩) ns,
      NodeOk n
  | [], ns, hns => hns
  | m :: ms, ns, hns => by
      rw [List.foldl_cons]
      exact foldCaps_ok ms _ (addNode_ok hns (errNode_ok (normKey m)))

theorem graph_nodes_ok : ∀ (files : List (List Char × List Char)) (st : MemGraph),
    (∀ f ∈ files, errPre.isPrefixOf (stem f.1) = false) →
    (∀ n ∈ st.nodes, NodeOk n) →
    ∀ n ∈ (files.foldl processFile st).nodes, NodeOk n
  | [], _, _, hst => hst
  | f :: fs, st, hf, hst => by
      rw [List.foldl_cons]
      apply graph_nodes_ok fs _ (fun g hg => hf g (List.mem_cons_of_mem _ hg))
      have hbase : ∀ n ∈ addNode st.nodes ⟨stem f.1, sessionTok, none⟩, NodeOk n :=
        addNode_ok hst (sessNode_ok (hf f (List.mem_cons_self f fs)))
      have hrw : (processFile st f).nodes
          = (err_findall f.2).foldl
              (fun ns m => addNode ns ⟨errId (normKey m), errorTok, some (normKey m)⟩)
              (addNode st.nodes ⟨stem f.1, sessionTok, none⟩) := by
        show (List.foldl (processCap (stem f.1)) _ (err_findall f.2)).nodes = _
        rw [foldCaps_nodes]
      intro n hn
      rw [hrw] at hn
      exact foldCaps_ok _ _ hbase n hn

theorem countP_id_eq_count (i : List Char) (ns : List GNode) :
    ns.countP (fun n => decide (n.id = i)) = countOcc i (ns.map GNode.id) := by
  unfold countOcc
  rw [List.countP_map]
  apply List.countP_congr
  intro n _
  simp [Function.comp]

theorem countOcc_eq_zero {l : List (List Char)} {a : List Char} (ha : a ∉ l) :
    countOcc a l = 0 := by
  unfold countOcc
  apply List.countP_eq_zero.mpr
  intro x hx
  simp only [decide_eq_true_eq]
  intro hxa
  exact ha (hxa ▸ hx)

theorem countOcc_eq_one {l : List (List Char)} {a : List Char} (hn : l.Nodup)
    (ha : a ∈ l) : countOcc a l = 1 := by
  induction l with
  | nil => simp at ha
  | cons x xs ih =>
      obtain ⟨hx, hxs⟩ := List.nodup_cons.mp hn
      rcases List.mem_cons.mp ha with rfl | ha2
      · have hz : countOcc a xs = 0 := countOcc_eq_zero hx
        unfold countOcc at hz ⊢
        rw [List.countP_cons, hz]
        simp
      · have h1 : countOcc a xs = 1 := ih hxs ha2
        unfold countOcc at h1 ⊢
        rw [List.countP_cons, h1]
        have : x ≠ a := fun hc => hx (hc ▸ ha2)
        simp [this]

theorem errId_mem_idsOf (k : List Char) : ∀ (files : List (List Char × List Char)),
    (∀ f ∈ files, errPre.isPrefixOf (stem f.1) = false) →
    (errId k ∈ idsOf files ↔ k ∈ occKeys files) := by
  intro files hyp
  simp only [idsOf, occKeys, List.mem_flatMap]
  constructor
  · rintro ⟨f, hf, hmem⟩
    rcases List.mem_cons.mp hmem with heq | hmem
    · exfalso
      have hpre := isPrefixOf_self_append errPre k
      rw [show errPre ++ k = errId k from rfl, heq, hyp f hf] at hpre
      exact Bool.false_ne_true hpre
    · obtain ⟨k2, hk2, heq⟩ := List.mem_map.mp hmem
      exact ⟨f, hf, by rwa [← errId_inj heq]⟩
  · rintro ⟨f, hf, hk⟩
    exact ⟨f, hf, List.mem_cons_of_mem _ (List.mem_map.mpr ⟨k, hk, rfl⟩)⟩

theorem edge_count (k : List Char) : ∀ (files : List (List Char × List Char)),
    (files.flatMap
        (fun f => (fileKeys f.2).map
          (fun k2 => (⟨stem f.1, errId k2, hasErrorTok⟩ : GEdge)))).countP
        (fun e => decide (e.tgt = errId k))
      = countOcc k (occKeys files)
  | [] => rfl
  | f :: fs => by
      simp only [occKeys, countOcc] at *
      rw [List.flatMap_cons, List.flatMap_cons, List.countP_append, List.countP_append,
        edge_count k fs]
      congr 1
      rw [List.countP_map]
      apply List.countP_congr
      intro k2 _
      simp only [Function.comp_apply, decide_eq_true_eq]
      constructor
      · exact fun h => errId_inj h
      · exact fun h => by rw [h]

/-- C1 counterexample: in a directory whose first log file is named
`err:disk full.log`, the session node registered under the stem
`err:disk full` occupies the identity that the error key `disk full` derives,
so two occurrences of that error in `z.log` yield ZERO error nodes (not
exactly one) while still appending two edges. -/
theorem c1_counterexample :
    countOcc "disk full".toList (occKeys (selectFiles collideDir2)) = 2
      ∧ (memory_graph collideDir2).nodes.countP
          (fun n => decide (n.id = errId "disk full".toList)
            && decide (n.ntype = errorTok)) = 0
      ∧ (memory_graph collideDir2).edges.countP
          (fun e => decide (e.tgt = errId "disk full".toList)) = 2 :=
  ⟨by decide, by decide, by decide⟩

/-- C1 amended: provided no selected log file's stem begins with `err:`, the
builder holds exactly one error node for a normalized key that occurs (and
none for a key that does not), while the edge count towards that key's
identity equals the total number of its occurrences — node count does not
grow with recurrences but edge count does. -/
theorem c1_dedup_counts (dir : List (List Char × List Char)) (k : List Char)
    (hyp : ∀ f ∈ selectFiles dir, errPre.isPrefixOf (stem f.1) = false) :
    (memory_graph dir).nodes.countP
        (fun n => decide (n.id = errId k) && decide (n.ntype = errorTok))
      = (if k ∈ occKeys (selectFiles dir) then 1 else 0)
    ∧ (memory_graph dir).edges.countP (fun e => decide (e.tgt = errId k))
      = countOcc k (occKeys (selectFiles dir)) := by
  constructor
  · have hok : ∀ n ∈ (memory_graph dir).nodes, NodeOk n :=
      graph_nodes_ok (selectFiles dir) ⟨[], []⟩ hyp (by intro n hn; simp at hn)
    have hc : (memory_graph dir).nodes.countP
          (fun n => decide (n.id = errId k) && decide (n.ntype = errorTok))
        = (memory_graph dir).nodes.countP (fun n => decide (n.id = errId k)) := by
      apply List.countP_congr
      intro n hn
      simp only [Bool.and_eq_true, decide_eq_true_eq]
      constructor
      · exact fun h => h.1
      · intro hid
        refine ⟨hid, ?_⟩
        rcases hok n hn with ⟨-, k2, hn2⟩ | ⟨hpre, -, -⟩
        · rw [hn2]
        · exfalso
          rw [hid] at hpre
          have htrue := isPrefixOf_self_append errPre k
          rw [show errPre ++ k = errId k from rfl, hpre] at htrue
          exact Bool.false_ne_true htrue
    rw [hc, countP_id_eq_count]
    have hids : (memory_graph dir).nodes.map GNode.id
        = (idsOf (selectFiles dir)).foldl dedupIns [] := by
      have := graph_nodes_ids (selectFiles dir) ⟨[], []⟩
      simpa using this
    rw [hids]
    have hnodup := dedupFold_nodup (idsOf (selectFiles dir)) [] List.nodup_nil
    have hmem := dedupFold_mem (idsOf (selectFiles dir)) [] (errId k)
    by_cases hk : k ∈ occKeys (selectFiles dir)
    · rw [if_pos hk]
      exact countOcc_eq_one hnodup
        (hmem.mpr (Or.inr ((errId_mem_idsOf k _ hyp).mpr hk)))
    · rw [if_neg hk]
      apply countOcc_eq_zero
      intro hcon
      rcases hmem.mp hcon with h | h
      · simp at h
      · exact hk ((errId_mem_idsOf k _ hyp).mp h)
  · have hE : (memory_graph dir).edges
        = (selectFiles dir).flatMap
            (fun f => (fileKeys f.2).map
              (fun k2 => ⟨stem f.1, errId k2, hasErrorTok⟩)) := by
      have := graph_edges (selectFiles dir) ⟨[], []⟩
      simpa using this
    rw [hE, edge_count]

/-- C1 amended, witnessed: the same error in two sessions yields one error
node and two edges. -/
theorem c1_witness :
    (∀ f ∈ selectFiles twoSessionDir, errPre.isPrefixOf (stem f.1) = false)
    ∧ (memory_graph twoSessionDir).nodes.countP
        (fun n => decide (n.id = errId "disk full".toList) && decide (n.ntype = errorTok))
      = (if "disk full".toList ∈ occKeys (selectFiles twoSessionDir) then 1 else 0)
    ∧ (memory_graph twoSessionDir).edges.countP
        (fun e => decide (e.tgt = errId "disk full".toList))
      = countOcc "disk full".toList (occKeys (selectFiles twoSessionDir)) :=
  ⟨by decide, (c1_dedup_counts twoSessionDir _ (by decide)).1,
    (c1_dedup_counts twoSessionDir _ (by decide)).2⟩

theorem mem_nodes_of_mem_idsOf (dir : List (List Char × List Char)) (i : List Char)
    (h : i ∈ idsOf (selectFiles dir)) : ∃ n ∈ (memory_graph dir).nodes, n.id = i := by
  have hids : (memory_graph dir).nodes.map GNode.id
      = (idsOf (selectFiles dir)).foldl dedupIns [] := by
    have := graph_nodes_ids (selectFiles dir) ⟨[], []⟩
    simpa using this
  have hmem : i ∈ (memory_graph dir).nodes.map GNode.id := by
    rw [hids]
    exact (dedupFold_mem _ _ _).mpr (Or.inr h)
  obtain ⟨n, hn, hid⟩ := List.mem_map.mp hmem
  exact ⟨n, hn, hid⟩

theorem edge_split (dir : List (List Char × List Char)) (e : GEdge)
    (he : e ∈ (memory_graph dir).edges) :
    ∃ f ∈ selectFiles dir, ∃ k2 ∈ fileKeys f.2,
      e = ⟨stem f.1, errId k2, hasErrorTok⟩ := by
  have hE : (memory_graph dir).edges
      = (selectFiles dir).flatMap
          (fun f => (fileKeys f.2).map (fun k2 => ⟨stem f.1, errId k2, hasErrorTok⟩)) := by
    simpa using graph_edges (selectFiles dir) ⟨[], []⟩
  rw [hE] at he
  obtain ⟨f, hf, hmem⟩ := List.mem_flatMap.mp he
  obtain ⟨k2, hk2, heq⟩ := List.mem_map.mp hmem
  exact ⟨f, hf, k2, hk2, heq.symm⟩

theorem stem_mem_idsOf {f : List Char × List Char} {files : List (List Char × List Char)}
    (hf : f ∈ files) : stem f.1 ∈ idsOf files :=
  List.mem_flatMap.mpr ⟨f, hf, List.mem_cons_self _ _⟩

theorem errId_mem_idsOf_of_key {f : List Char × List Char}
    {files : List (List Char × List Char)} {k2 : List Char}
    (hf : f ∈ files) (hk : k2 ∈ fileKeys f.2) : errId k2 ∈ idsOf files :=
  List.mem_flatMap.mpr ⟨f, hf, List.mem_cons_of_mem _ (List.mem_map.mpr ⟨k2, hk, rfl⟩)⟩

/-- C9 counterexample: in the collision directory, the graph is NOT bipartite
as claimed — the only edge points at an id held by a session-typed node (the
session registered from the file stem `err:disk full`), so no error-typed
node carries the edge's target id. -/
theorem c9_counterexample :
    ∃ e ∈ (memory_graph collideDir).edges,
      ∀ n ∈ (memory_graph collideDir).nodes, n.id = e.tgt → n.ntype ≠ errorTok := by
  decide

/-- C9 amended: provided no selected log file's stem begins with `err:`, node
ids are pairwise distinct (so node identity determines the node, kind
included), and every edge carries the `has_error` relation from a
session-typed node's id to an error-typed node's id. -/
theorem c9_bipartite (dir : List (List Char × List Char))
    (hyp : ∀ f ∈ selectFiles dir, errPre.isPrefixOf (stem f.1) = false) :
    ((memory_graph dir).nodes.map GNode.id).Nodup
    ∧ (∀ n ∈ (memory_graph dir).nodes, ∀ m ∈ (memory_graph dir).nodes,
        n.id = m.id → n = m)
    ∧ ∀ e ∈ (memory_graph dir).edges,
        e.etype = hasErrorTok
        ∧ (∃ n ∈ (memory_graph dir).nodes, n.id = e.src ∧ n.ntype = sessionTok)
        ∧ (∃ n ∈ (memory_graph dir).nodes, n.id = e.tgt ∧ n.ntype = errorTok) := by
  have hids : (memory_graph dir).nodes.map GNode.id
      = (idsOf (selectFiles dir)).foldl dedupIns [] := by
    have := graph_nodes_ids (selectFiles dir) ⟨[], []⟩
    simpa using this
  have hnodup : ((memory_graph dir).nodes.map GNode.id).Nodup := by
    rw [hids]
    exact dedupFold_nodup _ [] List.nodup_nil
  have hok : ∀ n ∈ (memory_graph dir).nodes, NodeOk n :=
    graph_nodes_ok (selectFiles dir) ⟨[], []⟩ hyp (by intro n hn; simp at hn)
  refine ⟨hnodup, List.inj_on_of_nodup_map hnodup, ?_⟩
  intro e he
  obtain ⟨f, hf, k2, hk2, rfl⟩ := edge_split dir e he
  refine ⟨rfl, ?_, ?_⟩
  · obtain ⟨n, hn, hid⟩ := mem_nodes_of_mem_idsOf dir _ (stem_mem_idsOf hf)
    refine ⟨n, hn, hid, ?_⟩
    rcases hok n hn with ⟨hpre, k3, hn3⟩ | ⟨-, hty, -⟩
    · exfalso
      rw [hid, hyp f hf] at hpre
      exact Bool.false_ne_true hpre
    · exact hty
  · obtain ⟨n, hn, hid⟩ := mem_nodes_of_mem_idsOf dir _ (errId_mem_idsOf_of_key hf hk2)
    refine ⟨n, hn, hid, ?_⟩
    rcases hok n hn with ⟨-, k3, hn3⟩ | ⟨hpre, -, -⟩
    · rw [hn3]
    · exfalso
      rw [hid] at hpre
      have htrue := isPrefixOf_self_append errPre k2
      rw [show errPre ++ k2 = errId k2 from rfl, hpre] at htrue
      exact Bool.false_ne_true htrue

/-- C9 amended, witnessed on the benign two-session directory. -/
theorem c9_witness :
    (∀ f ∈ selectFiles twoSessionDir, errPre.isPrefixOf (stem f.1) = false)
    ∧ (((memory_graph twoSessionDir).nodes.map GNode.id).Nodup
      ∧ (∀ n ∈ (memory_graph twoSessionDir).nodes,
          ∀ m ∈ (memory_graph twoSessionDir).nodes, n.id = m.id → n = m)
      ∧ ∀ e ∈ (memory_graph twoSessionDir).edges,
          e.etype = hasErrorTok
          ∧ (∃ n ∈ (memory_graph twoSessionDir).nodes,
              n.id = e.src ∧ n.ntype = sessionTok)
          ∧ (∃ n ∈ (memory_graph twoSessionDir).nodes,
              n.id = e.tgt ∧ n.ntype = errorTok)) :=
  ⟨by decide, c9_bipartite twoSessionDir (by decide)⟩

/-- C10: every edge of the serialized graph is referentially intact — its
from-id and its to-id each equal the id of some emitted node (the session
node is registered before the file's edges, and the error id is inserted by
`setdefault` immediately before each edge that points at it, so both ids are
always present, with or without id collisions). -/
theorem c10_referential_integrity (dir : List (List Char × List Char)) :
    ∀ e ∈ (memory_graph dir).edges,
      (∃ n ∈ (memory_graph dir).nodes, n.id = e.src)
      ∧ (∃ n ∈ (memory_graph dir).nodes, n.id = e.tgt) := by
  intro e he
  obtain ⟨f, hf, k2, hk2, rfl⟩ := edge_split dir e he
  exact ⟨mem_nodes_of_mem_idsOf dir _ (stem_mem_idsOf hf),
    mem_nodes_of_mem_idsOf dir _ (errId_mem_idsOf_of_key hf hk2)⟩

/-- C10, witnessed at the first edge of the two-session directory. -/
theorem c10_witness :
    (⟨"a".toList, errId "disk full".toList, hasErrorTok⟩ : GEdge)
        ∈ (memory_graph twoSessionDir).edges
    ∧ ((∃ n ∈ (memory_graph twoSessionDir).nodes,
          n.id = (⟨"a".toList, errId "disk full".toList, hasErrorTok⟩ : GEdge).src)
      ∧ (∃ n ∈ (memory_graph twoSessionDir).nodes,
          n.id = (⟨"a".toList, errId "disk full".toList, hasErrorTok⟩ : GEdge).tgt)) :=
  ⟨by decide, c10_referential_integrity twoSessionDir _ (by decide)⟩

/-- C6 counterexample: a captured error message of exactly 201 characters
need NOT yield a key of length 200 — the code trims before truncating, so
the realizable 201-character capture consisting of two spaces and 199 `X`s
normalizes to a key of length 199. -/
theorem c6_counterexample :
    ∃ m ∈ err_findall c6text, m.length = 201 ∧ (normKey m).length ≠ 200 := by
  decide

/-- C6 amended: the normalized key is the trimmed text truncated to 200
characters; a captured message of exactly 201 characters whose trimming
removes nothing yields a key of length 200 (a capture with surrounding
whitespace can yield a shorter one); two messages whose trimmed forms agree
on their first 200 characters derive the same error identity; and node ids
are never duplicated, so equal identities collapse to a single node. -/
theorem c6_truncation :
    (∀ m : List Char, normKey m = (pyStrip m).take 200)
    ∧ (∀ m : List Char, pyStrip m = m → m.length = 201 → (normKey m).length = 200)
    ∧ (∀ m1 m2 : List Char, (pyStrip m1).take 200 = (pyStrip m2).take 200 →
        errId (normKey m1) = errId (normKey m2))
    ∧ ∀ files : List (List Char × List Char),
        ((graphOfFiles files).nodes.map GNode.id).Nodup := by
  refine ⟨fun m => rfl, ?_, ?_, ?_⟩
  · intro m hs hl
    rw [normKey, hs, List.length_take, hl]
    decide
  · intro m1 m2 h
    exact congrArg errId h
  · intro files
    have hids : (graphOfFiles files).nodes.map GNode.id
        = (idsOf files).foldl dedupIns [] := by
      simpa using graph_nodes_ids files ⟨[], []⟩
    rw [hids]
    exact dedupFold_nodup _ [] List.nodup_nil

/-- C6 amended, witnessed: a 201-character capture without surrounding
whitespace does give a key of length 200. -/
theorem c6_witness :
    pyStrip (List.replicate 201 'X') = List.replicate 201 'X'
    ∧ (List.replicate 201 'X').length = 201
    ∧ (normKey (List.replicate 201 'X')).length = 200 :=
  ⟨by decide, by decide, c6_truncation.2.1 _ (by decide) (by decide)⟩

theorem charListLe_total : ∀ a b : List Char,
    charListLe a b = true ∨ charListLe b a = true
  | [], _ => Or.inl rfl
  | _ :: _, [] => Or.inr rfl
  | a :: as, b :: bs => by
      rcases Nat.lt_trichotomy a.toNat b.toNat with h | h | h
      · left; simp [charListLe, h]
      · have h1 : ¬ a.toNat < b.toNat := by omega
        have h2 : ¬ b.toNat < a.toNat := by omega
        rcases charListLe_total as bs with ih | ih
        · left; simp [charListLe, h1, h2, ih]
        · right; simp [charListLe, h1, h2, ih]
      · right; simp [charListLe, h]

theorem charListLe_trans : ∀ a b c : List Char, charListLe a b = true →
    charListLe b c = true → charListLe a c = true
  | [], _, _, _, _ => rfl
  | _ :: _, [], _, hab, _ => by simp [charListLe] at hab
  | _ :: _, _ :: _, [], _, hbc => by simp [charListLe] at hbc
  | a :: as, b :: bs, c :: cs, hab, hbc => by
      simp only [charListLe] at hab hbc ⊢
      by_cases h1 : a.toNat < c.toNat
      · rw [if_pos h1]
      · by_cases hab1 : a.toNat < b.toNat <;> by_cases hbc1 : b.toNat < c.toNat
        · exact (h1 (by omega)).elim
        · rw [if_neg hbc1] at hbc
          by_cases hcb : c.toNat < b.toNat
          · rw [if_pos hcb] at hbc; exact absurd hbc (by simp)
          · exact (h1 (by omega)).elim
        · rw [if_neg hab1] at hab
          by_cases hba : b.toNat < a.toNat
          · rw [if_pos hba] at hab; exact absurd hab (by simp)
          · exact (h1 (by omega)).elim
        · rw [if_neg hab1] at hab
          rw [if_neg hbc1] at hbc
          by_cases hba : b.toNat < a.toNat
          · rw [if_pos hba] at hab; exact absurd hab (by simp)
          · by_cases hcb : c.toNat < b.toNat
            · rw [if_pos hcb] at hbc; exact absurd hbc (by simp)
            · have h2 : ¬ c.toNat < a.toNat := by omega
              rw [if_neg hba] at hab
              rw [if_neg hcb] at hbc
              rw [if_neg h1, if_neg h2]
              exact charListLe_trans as bs cs hab hbc

/-- C3: the builder processes exactly the window-many (the window is the
constant 200 in the source) lexicographically last files matching `*.log`,
in ascending name order: the selection feeding the graph fold has length
`min 200 (matching file count)`, is sorted ascending, and is a final segment
of the ascending sort (everything before it is silently ignored); when the
window is at least the file count, the selection is a permutation of every
matching file. -/
theorem c3_window (dir : List (List Char × List Char)) :
    memory_graph dir = graphOfFiles (selectFiles dir)
    ∧ (selectFiles dir).length = min 200 (dir.filter (fun f => globMatch f.1)).length
    ∧ List.Sorted fileLe (selectFiles dir)
    ∧ (∃ front, List.insertionSort fileLe (dir.filter (fun f => globMatch f.1))
        = front ++ selectFiles dir)
    ∧ ((dir.filter (fun f => globMatch f.1)).length ≤ 200 →
        (selectFiles dir).Perm (dir.filter (fun f => globMatch f.1))) := by
  haveI : IsTotal (List Char × List Char) fileLe := ⟨fun p q => charListLe_total p.1 q.1⟩
  haveI : IsTrans (List Char × List Char) fileLe :=
    ⟨fun p q r => charListLe_trans p.1 q.1 r.1⟩
  have hdef : selectFiles dir
      = (List.insertionSort fileLe (dir.filter fun f => globMatch f.1)).drop
          ((List.insertionSort fileLe (dir.filter fun f => globMatch f.1)).length - 200) :=
    rfl
  have hlen : (List.insertionSort fileLe (dir.filter fun f => globMatch f.1)).length
      = (dir.filter fun f => globMatch f.1).length :=
    (List.perm_insertionSort fileLe _).length_eq
  refine ⟨rfl, ?_, ?_, ?_, ?_⟩
  · rw [hdef, List.length_drop, hlen]
    omega
  · rw [hdef]
    exact List.Pairwise.sublist (List.drop_sublist _ _) (List.sorted_insertionSort fileLe _)
  · exact ⟨(List.insertionSort fileLe (dir.filter fun f => globMatch f.1)).take
      ((List.insertionSort fileLe (dir.filter fun f => globMatch f.1)).length - 200),
      (List.take_append_drop _ _).symm⟩
  · intro hle
    have hz : (List.insertionSort fileLe (dir.filter fun f => globMatch f.1)).length - 200
        = 0 := by omega
    rw [hdef, hz, List.drop_zero]
    exact List.perm_insertionSort fileLe _

/-- C3, witnessed on a three-entry directory with one non-log file: the
window exceeds the file count, so every matching file is processed. -/
theorem c3_witness :
    (mixedDir.filter (fun f => globMatch f.1)).length ≤ 200
    ∧ (selectFiles mixedDir).Perm (mixedDir.filter (fun f => globMatch f.1)) :=
  ⟨by decide, (c3_window mixedDir).2.2.2.2 (by decide)⟩

theorem readAll_ok : ∀ (files : List (List Char × Option (List Nat))),
    (∀ f ∈ files, f.2 ≠ none) → ∃ l, readAll files = Except.ok l
  | [], _ => ⟨[], rfl⟩
  | (n, ob) :: rest, h => by
      cases ob with
      | none => exact absurd rfl (h (n, none) (List.mem_cons_self _ _))
      | some bs =>
          obtain ⟨l, hl⟩ := readAll_ok rest (fun f hf => h f (List.mem_cons_of_mem _ hf))
          exact ⟨(n, decodeIgnore bs) :: l, by simp [readAll, hl, Except.map]⟩

theorem readAll_error : ∀ (files : List (List Char × Option (List Nat))),
    (∃ f ∈ files, f.2 = none) → ∃ nm, readAll files = Except.error nm
  | [], h => by
      obtain ⟨f, hf, -⟩ := h
      simp at hf
  | (n, ob) :: rest, h => by
      cases ob with
      | none => exact ⟨n, rfl⟩
      | some bs =>
          have hrest : ∃ f ∈ rest, f.2 = none := by
            obtain ⟨f, hf, hnone⟩ := h
            rcases List.mem_cons.mp hf with rfl | hf2
            · simp at hnone
            · exact ⟨f, hf2, hnone⟩
          obtain ⟨nm, hnm⟩ := readAll_error rest hrest
          exact ⟨nm, by simp [readAll, hnm, Except.map]⟩

/-- C8 counterexample: an unreadable selected log file DOES abort the whole
run — with `a.log` unreadable the builder aborts before producing any graph,
contributing nothing from the perfectly readable `b.log`. -/
theorem c8_counterexample :
    memory_graph_raw [("a.log".toList, none), ("b.log".toList, some [72, 105])]
      = Except.error "a.log".toList := by
  rfl

/-- C8 amended: when every selected log file is readable, the run never
aborts — malformed byte sequences are repaired by dropping them during
decoding (for instance the invalid byte 255 is dropped from `0xFF Hi`), and
the builder produces a graph; a selected file that is unreadable at the
operating-system level, however, makes the whole run abort with an error. -/
theorem c8_decode_tolerant :
    (∀ dir : List (List Char × Option (List Nat)),
      (∀ f ∈ selectFiles dir, f.2 ≠ none) → ∃ g, memory_graph_raw dir = Except.ok g)
    ∧ decodeIgnore [255, 72, 105] = "Hi".toList
    ∧ ∀ dir : List (List Char × Option (List Nat)),
        (∃ f ∈ selectFiles dir, f.2 = none) →
        ∃ nm, memory_graph_raw dir = Except.error nm := by
  refine ⟨?_, by decide, ?_⟩
  · intro dir h
    obtain ⟨l, hl⟩ := readAll_ok _ h
    exact ⟨graphOfFiles l, by simp [memory_graph_raw, hl, Except.map]⟩
  · intro dir h
    obtain ⟨nm, hnm⟩ := readAll_error _ h
    exact ⟨nm, by simp [memory_graph_raw, hnm, Except.map]⟩

/-- C8 amended, witnessed: a file whose content starts with an invalid byte
is decoded (the byte dropped) and the run succeeds. -/
theorem c8_witness :
    (∀ f ∈ selectFiles [("a.log".toList, some ([255, 72, 105] : List Nat))], f.2 ≠ none)
    ∧ ∃ g, memory_graph_raw [("a.log".toList, some ([255, 72, 105] : List Nat))]
        = Except.ok g :=
  ⟨by decide, c8_decode_tolerant.1 _ (by decide)⟩
